import Mathlib

/-!
# Verification of `minitorch/nn.py`: tiled 2D pooling and dropout

A shallow embedding of the module's functions over a rational-valued tensor
model.  A tensor is a shape together with flat row-major data; the external
tensor-library collaborators (`view`, `permute`, `contiguous`, `sum`, scalar
arithmetic, `zeros`, comparison masks) are modelled from the spec, since
their code is not part of this repository's source.
-/

/-- A tensor: a shape and flat row-major data.  Models the external minitorch
`Tensor` (values as rationals in place of floats). -/
structure Tensor where
  shape : List ℕ
  data : List ℚ
deriving Repr, DecidableEq

/-- Row-major flat index of multi-index `idx` in shape `sh`. -/
def ravel : List ℕ → List ℕ → ℕ
  | _ :: ss, i :: is => i * ss.prod + ravel ss is
  | _, _ => 0

/-- Multi-index of flat position `n` in shape `sh` (inverse of `ravel`). -/
def unravel : List ℕ → ℕ → List ℕ
  | [], _ => []
  | _ :: ss, n => n / ss.prod :: unravel ss (n % ss.prod)

/-- Element of `t` at multi-index `idx` (default 0 out of range). -/
def Tensor.get (t : Tensor) (idx : List ℕ) : ℚ := t.data.getD (ravel t.shape idx) 0

/-- Modelled from the spec: the external tensor library's `view` (§6) —
reinterpret contiguous row-major storage under a new shape. -/
def Tensor.view (t : Tensor) (sh : List ℕ) : Tensor := ⟨sh, t.data⟩

/-- Modelled from the spec: `contiguous` materialization (§6, §9).  In this
model every tensor is stored materialized in row-major order (`permute`
below materializes immediately), so `contiguous` is the identity. -/
def Tensor.contiguous (t : Tensor) : Tensor := t

/-- Permutation action: `applyPerm perm l` picks entry `perm[m]` of `l` as entry `m`. -/
def applyPerm (perm : List ℕ) (l : List ℕ) : List ℕ := perm.map (fun d => l.getD d 0)

/-- Inverse permutation, via index lookup. -/
def invPerm (perm : List ℕ) : List ℕ := (List.range perm.length).map (fun d => perm.indexOf d)

/-- Modelled from the spec: the external `permute` followed by
materialization (§4.1 steps 2–3): output axis `m` is input axis `perm[m]`,
and the result is stored in row-major order of the permuted shape. -/
def Tensor.permute (t : Tensor) (perm : List ℕ) : Tensor :=
  let sh := applyPerm perm t.shape
  ⟨sh, (List.range sh.prod).map (fun n => t.get (applyPerm (invPerm perm) (unravel sh n)))⟩

/-- Modelled from the spec: the external axis reduction `sum` (§6); the
reduced axis is kept with size 1 (§4.3: the reduced axis has "size 1,
typically squeezed by callers"). -/
def Tensor.sum (t : Tensor) (dim : ℕ) : Tensor :=
  let sh := t.shape.set dim 1
  ⟨sh, (List.range sh.prod).map (fun n =>
    ((List.range (t.shape.getD dim 0)).map
      (fun k => t.get ((unravel sh n).set dim k))).sum)⟩

/-- Modelled from the spec: elementwise division of a tensor by a scalar. -/
def Tensor.divScalar (t : Tensor) (a : ℚ) : Tensor := ⟨t.shape, t.data.map (fun v => v / a)⟩

/-- Modelled from the spec: elementwise product of same-shaped tensors
(used for `input * mask`, where both operands carry `input`'s shape, so
broadcasting is not exercised). -/
def Tensor.mul (t u : Tensor) : Tensor :=
  ⟨t.shape, List.zipWith (fun a b => a * b) t.data u.data⟩

/-- Modelled from the spec: the comparison `noise > p` of a tensor against a
scalar, producing a 0/1-valued mask tensor. -/
def Tensor.gtScalar (t : Tensor) (p : ℚ) : Tensor :=
  ⟨t.shape, t.data.map (fun v => if p < v then (1 : ℚ) else 0)⟩

/-- Modelled from the spec: `input.zeros(shape)` — a zero tensor. -/
def zerosT (sh : List ℕ) : Tensor := ⟨sh, List.replicate sh.prod 0⟩

/-- All-ones tensor of a given shape (the test vector of spec §8). -/
def onesT (sh : List ℕ) : Tensor := ⟨sh, List.replicate sh.prod 1⟩

/-- Function `tile` from `minitorch/nn.py`: reshape a (batch, channel, height, width)
tensor to (batch, channel, height/kh, width/kw, kh*kw).  The Python
`assert`s and the 4-tuple unpacking of `input.shape` are modelled as
`Option` (`none` = the uncaught exception). -/
def tile (input : Tensor) (kernel : ℕ × ℕ) : Option (Tensor × ℕ × ℕ) :=
  match input.shape, kernel with
  | [batch, channel, height, width], (kh, kw) =>
    if height % kh = 0 then
      if width % kw = 0 then
        let new_height := height / kh
        let new_width := width / kw
        let t1 := (input.view [batch, channel, new_height, kh, new_width, kw]).contiguous
        let t2 := (t1.permute [0, 1, 2, 4, 3, 5]).contiguous
        let t3 := t2.view [batch, channel, new_height, new_width, kh * kw]
        some (t3, new_height, new_width)
      else none
    else none
  | _, _ => none

/-- Function `avgpool2d` from `minitorch/nn.py`: tile, sum over the window axis
(dimension 4), divide by the pool area. -/
def avgpool2d (input : Tensor) (kernel : ℕ × ℕ) : Option Tensor :=
  (tile input kernel).map (fun r =>
    let pool_area : ℚ := (kernel.1 * kernel.2 : ℕ)
    (r.1.sum 4).divScalar pool_area)

/-- Function `dropout` from `minitorch/nn.py`.  The uniform noise tensor drawn by
`rand(input.shape, backend=input.backend)` is passed explicitly as `noise`
(randomness is an external collaborator, spec §4.6/§9). -/
def dropout (input : Tensor) (p : ℚ) (train : Bool) (ignore : Bool) (noise : Tensor) : Tensor :=
  if ignore = true ∨ train = false ∨ p = 0 then input
  else if p = 1 then zerosT input.shape
  else
    let mask := noise.gtScalar p
    (input.mul mask).divScalar (1 - p)

/-- Maximum of a list of slice values, for the modelled max reduction. -/
def listMax : List ℚ → ℚ
  | [] => 0
  | v :: vs => vs.foldr max v

/-- Modelled from the spec: `max(input, dim)` (§4.3) — missing from the
excerpted source (declared in the module's function list); reduces along
`dim`, keeping that axis with size 1. -/
def max' (t : Tensor) (dim : ℕ) : Tensor :=
  let sh := t.shape.set dim 1
  ⟨sh, (List.range sh.prod).map (fun n =>
    listMax ((List.range (t.shape.getD dim 0)).map
      (fun k => t.get ((unravel sh n).set dim k))))⟩

/-- Modelled from the spec: `argmax(input, dim)` (§4.3) — missing from the
excerpted source; a one-hot indicator, of the input's shape, of maximal
positions along `dim`, with all ties marked. -/
def argmax (t : Tensor) (dim : ℕ) : Tensor :=
  ⟨t.shape, (List.range t.shape.prod).map (fun n =>
    if t.get (unravel t.shape n) =
        listMax ((List.range (t.shape.getD dim 0)).map
          (fun k => t.get ((unravel t.shape n).set dim k)))
      then (1 : ℚ) else 0)⟩

/-- Modelled from the spec: `maxpool2d` (§4.4) — missing from the excerpted
source; tile, max-reduce the window axis, then remove the now-size-1 window
axis by a view. -/
def maxpool2d (input : Tensor) (kernel : ℕ × ℕ) : Option Tensor :=
  match input.shape with
  | [batch, channel, _, _] =>
    (tile input kernel).map (fun r =>
      ((max' r.1 4).contiguous).view [batch, channel, r.2.1, r.2.2])
  | _ => none

/-! ## Index arithmetic lemmas -/

theorem ravel_lt {sh idx : List ℕ} (h : List.Forall₂ (· < ·) idx sh) :
    ravel sh idx < sh.prod := by
  induction h with
  | nil => simp [ravel]
  | cons hab habs ih =>
    rename_i i s is ss
    simp only [ravel, List.prod_cons]
    calc i * ss.prod + ravel ss is < i * ss.prod + ss.prod := by
          exact Nat.add_lt_add_left ih _
      _ = (i + 1) * ss.prod := by ring
      _ ≤ s * ss.prod := Nat.mul_le_mul_right _ (Nat.succ_le_of_lt hab)

theorem unravel_ravel {sh idx : List ℕ} (h : List.Forall₂ (· < ·) idx sh) :
    unravel sh (ravel sh idx) = idx := by
  induction h with
  | nil => simp [unravel, ravel]
  | cons hab habs ih =>
    rename_i i s is ss
    have hr : ravel ss is < ss.prod := ravel_lt habs
    have hp : 0 < ss.prod := by omega
    simp only [ravel, unravel]
    rw [Nat.mul_comm i ss.prod, Nat.mul_add_div hp, Nat.mul_add_mod]
    rw [Nat.div_eq_of_lt hr, Nat.mod_eq_of_lt hr, Nat.add_zero]
    simp [ih]

theorem ravel_unravel {sh : List ℕ} {n : ℕ} (h : n < sh.prod) :
    ravel sh (unravel sh n) = n := by
  induction sh generalizing n with
  | nil => simp [List.prod_nil] at h; simp [unravel, ravel, h]
  | cons s ss ih =>
    have hp : 0 < ss.prod := by
      rcases Nat.eq_zero_or_pos ss.prod with h0 | h0
      · simp [List.prod_cons, h0] at h
      · exact h0
    simp only [unravel, ravel]
    rw [ih (Nat.mod_lt _ hp), Nat.mul_comm (n / ss.prod) ss.prod]
    exact Nat.div_add_mod n ss.prod

theorem unravel_lt {sh : List ℕ} {n : ℕ} (h : n < sh.prod) :
    List.Forall₂ (· < ·) (unravel sh n) sh := by
  induction sh generalizing n with
  | nil => exact List.Forall₂.nil
  | cons s ss ih =>
    have hp : 0 < ss.prod := by
      rcases Nat.eq_zero_or_pos ss.prod with h0 | h0
      · simp [List.prod_cons, h0] at h
      · exact h0
    refine List.Forall₂.cons ?_ (ih (Nat.mod_lt _ hp))
    exact Nat.div_lt_of_lt_mul (by rw [List.prod_cons, Nat.mul_comm] at h; exact h)

theorem getD_map_range {N n : ℕ} (f : ℕ → ℚ) (h : n < N) :
    (((List.range N).map f).getD n 0) = f n := by
  rw [List.getD_eq_getElem?_getD, List.getElem?_map, List.getElem?_range h]
  rfl

/-! ## Unfolding `tile` and the window identity -/

theorem tile_eq {input : Tensor} {b c h w kh kw : ℕ}
    (hsh : input.shape = [b, c, h, w]) (hh : h % kh = 0) (hw : w % kw = 0) :
    tile input (kh, kw) =
      some ((((input.view [b, c, h / kh, kh, w / kw, kw]).contiguous.permute
          [0, 1, 2, 4, 3, 5]).contiguous).view [b, c, h / kh, w / kw, kh * kw],
        h / kh, w / kw) := by
  unfold tile
  rw [hsh]
  simp [hh, hw]

theorem ravel5_eq_ravel6 (b c nh nw kh kw b₀ c₀ i j p q : ℕ) :
    ravel [b, c, nh, nw, kh * kw] [b₀, c₀, i, j, p * kw + q] =
      ravel [b, c, nh, nw, kh, kw] [b₀, c₀, i, j, p, q] := by
  simp [ravel, List.prod_cons, List.prod_nil]
  try ring

theorem ravel6_eq_ravel4 (b c nh kh nw kw b₀ c₀ i j p q : ℕ) :
    ravel [b, c, nh, kh, nw, kw] [b₀, c₀, i, p, j, q] =
      ravel [b, c, nh * kh, nw * kw] [b₀, c₀, i * kh + p, j * kw + q] := by
  simp [ravel, List.prod_cons, List.prod_nil]
  try ring

theorem tile_window_core {input : Tensor} {b c h w kh kw : ℕ}
    (hsh : input.shape = [b, c, h, w])
    (hh : h % kh = 0) (hw : w % kw = 0)
    {tiled : Tensor} {nh nw : ℕ} (ht : tile input (kh, kw) = some (tiled, nh, nw))
    {b₀ c₀ i j p q : ℕ}
    (hb : b₀ < b) (hc : c₀ < c) (hi : i < h / kh) (hj : j < w / kw)
    (hp : p < kh) (hq : q < kw) :
    tiled.get [b₀, c₀, i, j, p * kw + q] = input.get [b₀, c₀, i * kh + p, j * kw + q] := by
  rw [tile_eq hsh hh hw] at ht
  obtain ⟨rfl, rfl, rfl⟩ : tiled =
      (((input.view [b, c, h / kh, kh, w / kw, kw]).contiguous.permute
        [0, 1, 2, 4, 3, 5]).contiguous).view [b, c, h / kh, w / kw, kh * kw] ∧
      nh = h / kh ∧ nw = w / kw := by
    simpa [eq_comm, and_assoc] using ht
  have hf : List.Forall₂ (· < ·) [b₀, c₀, i, j, p, q] [b, c, h / kh, w / kw, kh, kw] :=
    .cons hb (.cons hc (.cons hi (.cons hj (.cons hp (.cons hq .nil)))))
  have hh' : h / kh * kh = h := Nat.div_mul_cancel (Nat.dvd_of_mod_eq_zero hh)
  have hw' : w / kw * kw = w := Nat.div_mul_cancel (Nat.dvd_of_mod_eq_zero hw)
  simp only [Tensor.get, Tensor.view, Tensor.contiguous, Tensor.permute, hsh]
  rw [show applyPerm [0, 1, 2, 4, 3, 5] [b, c, h / kh, kh, w / kw, kw] =
      [b, c, h / kh, w / kw, kh, kw] from rfl]
  rw [ravel5_eq_ravel6]
  rw [getD_map_range _ (ravel_lt hf)]
  rw [unravel_ravel hf]
  rw [show applyPerm (invPerm [0, 1, 2, 4, 3, 5]) [b₀, c₀, i, j, p, q] =
      [b₀, c₀, i, p, j, q] from rfl]
  rw [ravel6_eq_ravel4, hh', hw']

/-! ## Reduction along the window axis -/

theorem set4_cons (a b c d e k : ℕ) : ([a, b, c, d, e] : List ℕ).set 4 k = [a, b, c, d, k] := rfl

theorem getD4_cons (a b c d e : ℕ) : ([a, b, c, d, e] : List ℕ).getD 4 0 = e := rfl

theorem get_sum5 {t : Tensor} {b c nh nw S : ℕ} (hsh : t.shape = [b, c, nh, nw, S])
    {b₀ c₀ i j : ℕ} (hb : b₀ < b) (hc : c₀ < c) (hi : i < nh) (hj : j < nw) :
    (t.sum 4).get [b₀, c₀, i, j, 0] =
      ((List.range S).map (fun k => t.get [b₀, c₀, i, j, k])).sum := by
  have hf : List.Forall₂ (· < ·) [b₀, c₀, i, j, 0] [b, c, nh, nw, 1] :=
    .cons hb (.cons hc (.cons hi (.cons hj (.cons Nat.one_pos .nil))))
  simp only [Tensor.sum, Tensor.get, hsh, getD4_cons, set4_cons]
  rw [getD_map_range _ (ravel_lt hf), unravel_ravel hf]
  simp only [set4_cons]

theorem getD_map_div (l : List ℚ) (a : ℚ) (n : ℕ) :
    (l.map (fun v => v / a)).getD n 0 = l.getD n 0 / a := by
  induction l generalizing n with
  | nil => simp
  | cons x xs ih =>
    cases n with
    | zero => simp
    | succ n => simpa using ih n

theorem get_divScalar (t : Tensor) (a : ℚ) (idx : List ℕ) :
    (t.divScalar a).get idx = t.get idx / a := by
  simp only [Tensor.divScalar, Tensor.get, getD_map_div]

theorem list_sum_range_mul (f : ℕ → ℚ) (a b : ℕ) :
    ((List.range (a * b)).map f).sum =
      ((List.range a).map (fun p => ((List.range b).map (fun q => f (p * b + q))).sum)).sum := by
  induction a with
  | zero => simp
  | succ a ih =>
    rw [Nat.succ_mul, List.range_add, List.map_append, List.sum_append, ih,
      List.range_succ, List.map_append, List.sum_append, List.map_map]
    simp [Function.comp_def]

theorem tile_shape {input : Tensor} {b c h w kh kw : ℕ}
    (hsh : input.shape = [b, c, h, w]) (hh : h % kh = 0) (hw : w % kw = 0)
    {tiled : Tensor} {nh nw : ℕ} (ht : tile input (kh, kw) = some (tiled, nh, nw)) :
    tiled.shape = [b, c, h / kh, w / kw, kh * kw] ∧ nh = h / kh ∧ nw = w / kw := by
  rw [tile_eq hsh hh hw] at ht
  have h0 := Option.some.inj ht
  simp only [Prod.mk.injEq] at h0
  obtain ⟨h1, h2, h3⟩ := h0
  subst h1 h2 h3
  exact ⟨rfl, rfl, rfl⟩

theorem avgpool2d_some {input : Tensor} {kh kw : ℕ} {out : Tensor}
    (hout : avgpool2d input (kh, kw) = some out) :
    ∃ r : Tensor × ℕ × ℕ, tile input (kh, kw) = some r ∧
      out = (r.1.sum 4).divScalar ((kh * kw : ℕ) : ℚ) := by
  unfold avgpool2d at hout
  cases htl : tile input (kh, kw) with
  | none => rw [htl] at hout; simp at hout
  | some r =>
    rw [htl] at hout
    simp only [Option.map_some', Option.some.injEq] at hout
    exact ⟨r, rfl, hout.symm⟩

theorem avgpool2d_get {input : Tensor} {b c h w kh kw : ℕ}
    (hsh : input.shape = [b, c, h, w]) (hh : h % kh = 0) (hw : w % kw = 0)
    {out : Tensor} (hout : avgpool2d input (kh, kw) = some out)
    {b₀ c₀ i j : ℕ} (hb : b₀ < b) (hc : c₀ < c) (hi : i < h / kh) (hj : j < w / kw) :
    out.get [b₀, c₀, i, j, 0] =
      ((List.range kh).map (fun p =>
        ((List.range kw).map (fun q =>
          input.get [b₀, c₀, i * kh + p, j * kw + q])).sum)).sum / ((kh * kw : ℕ) : ℚ) := by
  obtain ⟨⟨tiled, nh, nw⟩, ht, rfl⟩ := avgpool2d_some hout
  obtain ⟨hshT, rfl, rfl⟩ := tile_shape hsh hh hw ht
  rw [get_divScalar, get_sum5 hshT hb hc hi hj, list_sum_range_mul]
  congr 1
  refine congrArg List.sum (List.map_congr_left (fun p hp => ?_))
  refine congrArg List.sum (List.map_congr_left (fun q hq => ?_))
  exact tile_window_core hsh hh hw ht hb hc hi hj (List.mem_range.mp hp) (List.mem_range.mp hq)

/-! ## Further helpers: all-ones inputs and dropout data access -/

theorem get_onesT {sh idx : List ℕ} (h : List.Forall₂ (· < ·) idx sh) :
    (onesT sh).get idx = 1 := by
  simp only [onesT, Tensor.get]
  rw [List.getD_eq_getElem?_getD, List.getElem?_replicate]
  simp [ravel_lt h]

theorem window_idx_lt {i p kh h : ℕ} (hi : i < h / kh) (hp : p < kh) (hh : h % kh = 0) :
    i * kh + p < h := by
  have h1 : i * kh + p < i * kh + kh := by omega
  have h2 : (i + 1) * kh ≤ (h / kh) * kh := Nat.mul_le_mul_right _ hi
  rw [Nat.succ_mul] at h2
  rw [Nat.div_mul_cancel (Nat.dvd_of_mod_eq_zero hh)] at h2
  omega

theorem avgpool2d_onesT {b c h w kh kw : ℕ} (hkh : 0 < kh) (hkw : 0 < kw)
    (hh : h % kh = 0) (hw : w % kw = 0)
    {out : Tensor} (hout : avgpool2d (onesT [b, c, h, w]) (kh, kw) = some out)
    {b₀ c₀ i j : ℕ} (hb : b₀ < b) (hc : c₀ < c) (hi : i < h / kh) (hj : j < w / kw) :
    out.get [b₀, c₀, i, j, 0] = 1 := by
  rw [avgpool2d_get rfl hh hw hout hb hc hi hj]
  have hone : ∀ p ∈ List.range kh, ∀ q ∈ List.range kw,
      (onesT [b, c, h, w]).get [b₀, c₀, i * kh + p, j * kw + q] = 1 := by
    intro p hp q hq
    refine get_onesT (.cons hb (.cons hc (.cons ?_ (.cons ?_ .nil))))
    · exact window_idx_lt hi (List.mem_range.mp hp) hh
    · exact window_idx_lt hj (List.mem_range.mp hq) hw
  have hrw : ((List.range kh).map (fun p => ((List.range kw).map (fun q =>
      (onesT [b, c, h, w]).get [b₀, c₀, i * kh + p, j * kw + q])).sum)).sum
      = ((kh : ℚ) * kw) := by
    rw [List.map_congr_left (fun p hp => congrArg List.sum
      (List.map_congr_left (fun q hq => hone p hp q hq)))]
    simp [List.map_const', List.sum_replicate, mul_comm]
  rw [hrw]
  rw [div_eq_one_iff_eq]
  · push_cast
    ring
  · push_cast
    positivity

theorem getD_zipWith_mul (l₁ l₂ : List ℚ) (n : ℕ) (h1 : n < l₁.length) (h2 : n < l₂.length) :
    (List.zipWith (fun a b => a * b) l₁ l₂).getD n 0 = l₁.getD n 0 * l₂.getD n 0 := by
  induction l₁ generalizing l₂ n with
  | nil => simp at h1
  | cons x xs ih =>
    cases l₂ with
    | nil => simp at h2
    | cons y ys =>
      cases n with
      | zero => simp
      | succ n => simpa using ih ys n (by simpa using h1) (by simpa using h2)

theorem getD_map_lt (g : ℚ → ℚ) (l : List ℚ) (n : ℕ) (h : n < l.length) :
    (l.map g).getD n 0 = g (l.getD n 0) := by
  induction l generalizing n with
  | nil => simp at h
  | cons x xs ih =>
    cases n with
    | zero => simp
    | succ n => simpa using ih n (by simpa using h)

theorem zipWith_mul_ones (l₁ : List ℚ) (m : ℕ) (h : l₁.length ≤ m) :
    List.zipWith (fun a b => a * b) l₁ (List.replicate m 1) = l₁ := by
  induction l₁ generalizing m with
  | nil => simp
  | cons x xs ih =>
    cases m with
    | zero => simp at h
    | succ m => simp [List.replicate_succ, ih m (by simpa using h)]

/-! ## Concrete test tensors -/

/-- A 1×1×2×2 tensor holding 1,2,3,4. -/
def x22 : Tensor := ⟨[1, 1, 2, 2], [1, 2, 3, 4]⟩

/-- The 1×1×4×4 row-major ramp 0..15 (spec §8 max-pool test vector). -/
def x44 : Tensor :=
  ⟨[1, 1, 4, 4], [0, 1, 2, 3, 4, 5, 6, 7, 8, 9, 10, 11, 12, 13, 14, 15]⟩

/-- A 1×1×2×2 noise tensor with entries in [0, 1). -/
def n22 : Tensor := ⟨[1, 1, 2, 2], [1/4, 3/4, 1/2, 9/10]⟩

/-- A 1×1×3×3 zero tensor: its spatial sizes are not divisible by 2. -/
def x33 : Tensor := ⟨[1, 1, 3, 3], [0, 0, 0, 0, 0, 0, 0, 0, 0]⟩

/-! ## The claims -/

/-- C3: for every 4-D input of shape (b, c, h, w) and kernel (kh, kw) with
h % kh = 0 and w % kw = 0, `tile` returns a tensor of shape
(b, c, h/kh, w/kw, kh*kw) together with new_height = h/kh and
new_width = w/kw. -/
theorem tile_shape_spec (input : Tensor) (b c h w kh kw : ℕ)
    (hsh : input.shape = [b, c, h, w]) (hkh : 0 < kh) (hkw : 0 < kw)
    (hh : h % kh = 0) (hw : w % kw = 0) :
    ∃ t, tile input (kh, kw) = some (t, h / kh, w / kw) ∧
      t.shape = [b, c, h / kh, w / kw, kh * kw] :=
  ⟨_, tile_eq hsh hh hw, rfl⟩

theorem tile_shape_spec_witness :
    ∃ t, tile x22 (2, 2) = some (t, 1, 1) ∧ t.shape = [1, 1, 1, 1, 4] :=
  tile_shape_spec x22 1 1 2 2 2 2 rfl (by decide) (by decide) (by decide) (by decide)

/-- C4: the tensor returned by `tile` satisfies, for all in-range indices,
tiled[b₀,c₀,i,j, p*kw+q] = input[b₀,c₀, i*kh+p, j*kw+q]: each window row
tiled[b₀,c₀,i,j,:] is the kh×kw window of the input flattened in row-major
(height-major) order. -/
theorem tile_window_values (input : Tensor) (b c h w kh kw : ℕ)
    (hsh : input.shape = [b, c, h, w]) (hh : h % kh = 0) (hw : w % kw = 0)
    (tiled : Tensor) (nh nw : ℕ) (ht : tile input (kh, kw) = some (tiled, nh, nw))
    (b₀ c₀ i j p q : ℕ)
    (hb : b₀ < b) (hc : c₀ < c) (hi : i < h / kh) (hj : j < w / kw)
    (hp : p < kh) (hq : q < kw) :
    tiled.get [b₀, c₀, i, j, p * kw + q] = input.get [b₀, c₀, i * kh + p, j * kw + q] :=
  tile_window_core hsh hh hw ht hb hc hi hj hp hq

theorem tile_window_values_witness :
    tile x22 (2, 2) = some (⟨[1, 1, 1, 1, 4], [1, 2, 3, 4]⟩, 1, 1) ∧
      (⟨[1, 1, 1, 1, 4], [1, 2, 3, 4]⟩ : Tensor).get [0, 0, 0, 0, 2] = x22.get [0, 0, 1, 0] :=
  ⟨by decide,
    tile_window_values x22 1 1 2 2 2 2 rfl (by decide) (by decide)
      ⟨[1, 1, 1, 1, 4], [1, 2, 3, 4]⟩ 1 1 (by decide) 0 0 0 0 1 0
      (by decide) (by decide) (by decide) (by decide) (by decide) (by decide)⟩

/-- C1 (code bug): on the 1×1×2×2 input with kernel (2,2), `avgpool2d`
returns a tensor of shape [1,1,1,1,1] — the window axis survives as a
trailing size-1 axis, because `tiled.sum(dim=4)` keeps the reduced axis and
no squeezing view follows — contradicting the claimed shape
(batch, channel, height/kh, width/kw) with no trailing window axis. -/
theorem avgpool2d_keeps_window_axis :
    (avgpool2d x22 (2, 2)).map Tensor.shape = some [1, 1, 1, 1, 1] ∧
      (avgpool2d x22 (2, 2)).map Tensor.shape ≠ some [1, 1, 1, 1] := by
  decide

/-- C6 (code bug): `avgpool2d` with the degenerate 1×1 kernel is not the
identity: the result carries a trailing size-1 window axis, so it differs
from the input in shape (while, e.g., the entry at logical position
(0,0,1,1) keeps the input's value). -/
theorem avgpool2d_one_one_not_identity :
    avgpool2d x22 (1, 1) ≠ some x22 ∧
      (avgpool2d x22 (1, 1)).map Tensor.shape = some [1, 1, 2, 2, 1] ∧
      (avgpool2d x22 (1, 1)).map (fun t => t.get [0, 0, 1, 1, 0]) =
        some (x22.get [0, 0, 1, 1]) := by
  have hshape : (avgpool2d x22 (1, 1)).map Tensor.shape = some [1, 1, 2, 2, 1] := by decide
  refine ⟨?_, hshape, ?_⟩
  · intro hEq
    rw [hEq] at hshape
    exact absurd (Option.some.inj hshape) (by decide)
  · obtain ⟨out, hout, -⟩ : ∃ out, avgpool2d x22 (1, 1) = some out ∧ True := by
      cases hav : avgpool2d x22 (1, 1) with
      | none => rw [hav] at hshape; simp at hshape
      | some out => exact ⟨out, rfl, trivial⟩
    rw [hout, Option.map_some', Option.some.injEq]
    rw [avgpool2d_get rfl (by decide) (by decide) hout (by decide) (by decide)
      (by decide) (by decide)]
    simp [List.range_succ]

/-- C5: every element of `avgpool2d input kernel` — the entry at logical
position (b₀, c₀, i, j, 0) — equals the sum of the corresponding kh×kw
window of the input divided by kh*kw; and on an all-ones input every
element of the result is 1. -/
theorem avgpool2d_window_mean (input : Tensor) (b c h w kh kw : ℕ)
    (hsh : input.shape = [b, c, h, w]) (hkh : 0 < kh) (hkw : 0 < kw)
    (hh : h % kh = 0) (hw : w % kw = 0)
    (out : Tensor) (hout : avgpool2d input (kh, kw) = some out)
    (oneOut : Tensor) (hone : avgpool2d (onesT [b, c, h, w]) (kh, kw) = some oneOut)
    (b₀ c₀ i j : ℕ) (hb : b₀ < b) (hc : c₀ < c) (hi : i < h / kh) (hj : j < w / kw) :
    out.get [b₀, c₀, i, j, 0] =
      ((List.range kh).map (fun p =>
        ((List.range kw).map (fun q =>
          input.get [b₀, c₀, i * kh + p, j * kw + q])).sum)).sum / ((kh * kw : ℕ) : ℚ) ∧
    oneOut.get [b₀, c₀, i, j, 0] = 1 :=
  ⟨avgpool2d_get hsh hh hw hout hb hc hi hj,
    avgpool2d_onesT hkh hkw hh hw hone hb hc hi hj⟩

/-- The tiled form of `x22` under kernel (2,2), as produced by `tile`. -/
def tiled22 : Tensor :=
  ((x22.view [1, 1, 1, 2, 1, 2]).contiguous.permute [0, 1, 2, 4, 3, 5]).contiguous.view
    [1, 1, 1, 1, 4]

/-- The output of `avgpool2d x22 (2,2)` as a program term. -/
def out22 : Tensor := (tiled22.sum 4).divScalar ((2 * 2 : ℕ) : ℚ)

/-- The tiled all-ones 1×1×2×2 tensor under kernel (2,2). -/
def tiledOnes22 : Tensor :=
  (((onesT [1, 1, 2, 2]).view [1, 1, 1, 2, 1, 2]).contiguous.permute
    [0, 1, 2, 4, 3, 5]).contiguous.view [1, 1, 1, 1, 4]

/-- The output of `avgpool2d (onesT [1,1,2,2]) (2,2)` as a program term. -/
def oneOut22 : Tensor := (tiledOnes22.sum 4).divScalar ((2 * 2 : ℕ) : ℚ)

theorem avgpool2d_window_mean_witness :
    out22.get [0, 0, 0, 0, 0] =
      ((List.range 2).map (fun p =>
        ((List.range 2).map (fun q =>
          x22.get [0, 0, 0 * 2 + p, 0 * 2 + q])).sum)).sum / ((2 * 2 : ℕ) : ℚ) ∧
    oneOut22.get [0, 0, 0, 0, 0] = 1 :=
  avgpool2d_window_mean x22 1 1 2 2 2 2 rfl (by decide) (by decide) (by decide) (by decide)
    out22 rfl oneOut22 rfl 0 0 0 0 (by decide) (by decide) (by decide) (by decide)

/-- C7: with a positive kernel, `tile` fails (the assertion raises, modelled
`none`) exactly when the divisibility precondition is violated, never
returning a padded or truncated result; when the precondition holds the
assertions pass and `tile` returns normally. -/
theorem tile_precondition (input : Tensor) (b c h w kh kw : ℕ)
    (hsh : input.shape = [b, c, h, w]) (hkh : 0 < kh) (hkw : 0 < kw) :
    (¬(h % kh = 0 ∧ w % kw = 0) → tile input (kh, kw) = none) ∧
    ((h % kh = 0 ∧ w % kw = 0) →
      ∃ t, tile input (kh, kw) = some (t, h / kh, w / kw)) := by
  constructor
  · intro hnd
    unfold tile
    rw [hsh]
    by_cases h1 : h % kh = 0
    · by_cases h2 : w % kw = 0
      · exact absurd ⟨h1, h2⟩ hnd
      · simp [h1, h2]
    · simp [h1]
  · rintro ⟨h1, h2⟩
    exact ⟨_, tile_eq hsh h1 h2⟩

theorem tile_precondition_witness :
    (¬(3 % 2 = 0 ∧ 3 % 2 = 0) ∧ tile x33 (2, 2) = none) ∧
      (2 % 2 = 0 ∧ 2 % 2 = 0) ∧ (∃ t, tile x22 (2, 2) = some (t, 2 / 2, 2 / 2)) :=
  ⟨⟨by decide, (tile_precondition x33 1 1 3 3 2 2 rfl (by decide) (by decide)).1 (by decide)⟩,
    by decide,
    (tile_precondition x22 1 1 2 2 2 2 rfl (by decide) (by decide)).2 ⟨rfl, rfl⟩⟩

/-- C2: the (spec-modelled) `maxpool2d` tiles the input, max-reduces along
the window axis and removes the now-size-1 window axis, returning shape
(batch, channel, height/kh, width/kw); `max'` (the `max(tensor, dim)`
operator) reduces axis `dim` to size 1 and `argmax` keeps the input's
shape. -/
theorem maxpool2d_interface (input : Tensor) (b c h w kh kw : ℕ)
    (hsh : input.shape = [b, c, h, w]) (hkh : 0 < kh) (hkw : 0 < kw)
    (hh : h % kh = 0) (hw : w % kw = 0) (t : Tensor) (dim : ℕ) :
    (∃ out, maxpool2d input (kh, kw) = some out ∧ out.shape = [b, c, h / kh, w / kw]) ∧
    (max' t dim).shape = t.shape.set dim 1 ∧
    (argmax t dim).shape = t.shape := by
  refine ⟨?_, rfl, rfl⟩
  unfold maxpool2d
  rw [hsh, tile_eq hsh hh hw]
  exact ⟨_, rfl, rfl⟩

theorem maxpool2d_interface_witness :
    (∃ out, maxpool2d x44 (2, 2) = some out ∧ out.shape = [1, 1, 2, 2]) ∧
      (max' x44 3).shape = [1, 1, 4, 1] ∧ (argmax x44 3).shape = [1, 1, 4, 4] :=
  maxpool2d_interface x44 1 1 4 4 2 2 rfl (by decide) (by decide) (by decide) (by decide)
    x44 3

/-- C8: `dropout` returns the input itself whenever `ignore` is true, or
`train` is false, or p = 0 — these checks take precedence (so e.g.
p = 1 with train = false still returns the input); otherwise, if p = 1,
it returns a zero tensor of the input's shape. -/
theorem dropout_identity_laws (x noise : Tensor) (p : ℚ) (train ig : Bool) :
    ((ig = true ∨ train = false ∨ p = 0) → dropout x p train ig noise = x) ∧
    (ig = false → train = true → p ≠ 0 → p = 1 →
      dropout x p train ig noise = zerosT x.shape) := by
  constructor
  · intro h
    unfold dropout
    rw [if_pos h]
  · intro h1 h2 h3 h4
    subst h1 h2 h4
    simp [dropout, h3]

theorem dropout_identity_laws_witness :
    dropout x22 1 false false n22 = x22 ∧
      dropout x22 1 true false n22 = zerosT x22.shape :=
  ⟨(dropout_identity_laws x22 n22 1 false false).1 (Or.inr (Or.inl rfl)),
    (dropout_identity_laws x22 n22 1 true false).2 rfl rfl (by norm_num) rfl⟩

/-- C9: for 0 < p < 1 in training mode with no override, and whatever noise
tensor of the input's shape is drawn, `dropout` keeps the input's shape and
each output element is the input element divided by (1 − p) where the noise
exceeds p, and 0 otherwise. -/
theorem dropout_active_scaling (x noise : Tensor) (p : ℚ)
    (hp0 : 0 < p) (hp1 : p < 1)
    (hsh : noise.shape = x.shape) (hlen : noise.data.length = x.data.length) :
    (dropout x p true false noise).shape = x.shape ∧
    ∀ n < x.data.length,
      (dropout x p true false noise).data.getD n 0 =
        if p < noise.data.getD n 0 then x.data.getD n 0 / (1 - p) else 0 := by
  have h1 : ¬(false = true ∨ true = false ∨ p = 0) := by
    simp
    exact ne_of_gt hp0
  have h2 : ¬p = 1 := ne_of_lt hp1
  unfold dropout
  rw [if_neg h1, if_neg h2]
  constructor
  · rfl
  · intro n hn
    simp only [Tensor.divScalar, Tensor.mul, Tensor.gtScalar]
    rw [getD_map_div,
      getD_zipWith_mul _ _ _ hn (by rw [List.length_map, hlen]; exact hn),
      getD_map_lt _ _ _ (by rw [hlen]; exact hn)]
    by_cases hm : p < noise.data.getD n 0
    · rw [if_pos hm, if_pos hm, mul_one]
    · rw [if_neg hm, if_neg hm, mul_zero, zero_div]

theorem dropout_active_scaling_witness :
    (dropout x22 (1/2) true false n22).shape = x22.shape ∧
      (dropout x22 (1/2) true false n22).data.getD 1 0 =
        if (1/2 : ℚ) < n22.data.getD 1 0 then x22.data.getD 1 0 / (1 - 1/2) else 0 :=
  ⟨(dropout_active_scaling x22 n22 (1/2) (by norm_num) (by norm_num) rfl rfl).1,
    (dropout_active_scaling x22 n22 (1/2) (by norm_num) (by norm_num) rfl rfl).2 1
      (by decide)⟩

/-- C10: `dropout` performs no domain validation on p: for p < 0 in training
mode with no override, no failure occurs and — the uniform noise being
nonnegative, so that every position passes the mask — the result is the
input scaled elementwise by 1/(1 − p). -/
theorem dropout_negative_p (x noise : Tensor) (p : ℚ) (hp : p < 0)
    (hsh : noise.shape = x.shape) (hlen : noise.data.length = x.data.length)
    (hnn : ∀ v ∈ noise.data, 0 ≤ v) :
    dropout x p true false noise = ⟨x.shape, x.data.map (fun v => v / (1 - p))⟩ := by
  have h1 : ¬(false = true ∨ true = false ∨ p = 0) := by
    simp
    exact ne_of_lt hp
  have h2 : ¬p = 1 := by
    intro h
    rw [h] at hp
    norm_num at hp
  unfold dropout
  rw [if_neg h1, if_neg h2]
  simp only [Tensor.mul, Tensor.gtScalar, Tensor.divScalar]
  congr 1
  have hmask : noise.data.map (fun v => if p < v then (1 : ℚ) else 0) =
      List.replicate noise.data.length 1 := by
    rw [List.map_congr_left (fun v hv => if_pos (lt_of_lt_of_le hp (hnn v hv)))]
    exact List.map_const' noise.data 1
  rw [hmask, zipWith_mul_ones _ _ (le_of_eq hlen.symm)]

theorem dropout_negative_p_witness :
    dropout x22 (-1) true false n22 =
      ⟨x22.shape, x22.data.map (fun v => v / (1 - (-1)))⟩ :=
  dropout_negative_p x22 n22 (-1) (by norm_num) rfl rfl (by norm_num [n22])
